import Mathlib

/-!
Verification of the two-phase tableau simplex solver (Bierlaire's course
notebooks): the pivot operator `pivoting`, the entering/leaving selector
`simplexTableau`, the iterator `simplexAlgorithmTableau`, the basic-variable
locator `getRow`, and the two-phase driver `simplex`.

The embedding works over exact rationals.  The floating-point tolerances of
the source, `np.finfo(float).eps` and `np.sqrt(np.finfo(float).eps)`, are
modelled by the exact constants `eps = 2 ^ (-52)` and `sqrtEps = 2 ^ (-26)`.
Python exceptions are modelled by `Except String`; the unbounded `while`
loops of the source are modelled with an explicit fuel parameter, running
out of fuel being an error distinct from every result the source can
produce.  NumPy arrays are modelled as lists of rows; in-place mutation of
the caller's `A` and `b` by the driver is modelled by state passing: the
driver returns the final values of `A` and `b` together with its result.
-/

/- The rational-arithmetic kernels of the library are irreducible by
default; computations on concrete tableaux are settled by `decide`, which
needs them to unfold. -/
attribute [local semireducible] Rat.add Rat.sub Rat.mul Rat.inv

abbrev Row : Type := List ℚ

abbrev Tableau : Type := List Row

/-- Exact model of `np.finfo(float).eps = 2 ** (-52)`. -/
def eps : ℚ := 1 / 2 ^ 52

/-- Exact model of `np.sqrt(np.finfo(float).eps) = 2 ** (-26)`. -/
def sqrtEps : ℚ := 1 / 2 ^ 26

/-- `tableau[i][j]` (all concrete accesses in the source are in range; the
default is never reached there). -/
def entry (T : Tableau) (i j : Nat) : ℚ := (T.getD i []).getD j 0

/-- `tableau[i, :]`. -/
def rowOf (T : Tableau) (i : Nat) : Row := T.getD i []

/-- `row[-1]`, the right-hand-side entry of a row. -/
def lastCol (r : Row) : ℚ := r.getD (r.length - 1) 0

/-- `tableau[:, j]`. -/
def column (T : Tableau) (j : Nat) : List ℚ := T.map (fun r => r.getD j 0)

/-- `pivoting(tableau, p, q)` from the notebooks: Gauss-Jordan elimination
around entry `(q, p)`.  Row `q` is divided by the pivot; every other row `i`
becomes `tableau[i, :] - tableau[i][p] * thepivotrow / thepivot`.  The three
`raise` statements of the source are the three `.error` branches. -/
def pivoting (T : Tableau) (p q : Nat) : Except String Tableau :=
  let m := T.length
  let n := (T.getD 0 []).length
  if q ≥ m then .error "The row of the pivot must be between 0 and m - 1"
  else if p ≥ n then .error "The column of the pivot must be between 0 and n - 1"
  else
    let thepivot := entry T q p
    if |thepivot| < eps then .error "The pivot is too close to zero"
    else
      let thepivotrow := rowOf T q
      .ok ((List.range m).map fun i =>
        if i = q then thepivotrow.map (fun x => x / thepivot)
        else List.zipWith (fun x y => x - entry T i p * y / thepivot)
          (rowOf T i) thepivotrow)

/-- `tableau[-1, :-1]`, the reduced-cost part of the objective row. -/
def reducedCosts (T : Tableau) : List ℚ := (rowOf T (T.length - 1)).dropLast

/-- Strict comparison on steps, where `none` stands for `np.inf`. -/
def ltOpt (a b : Option ℚ) : Bool :=
  match a, b with
  | none, _ => false
  | some _, none => true
  | some x, some y => decide (x < y)

/-- `np.argmin`: fold keeping the first occurrence of the minimum.
`i` is the index of the head of the remaining list, `bi`/`bv` the index and
value of the best candidate so far. -/
def argminFrom (i bi : Nat) (bv : Option ℚ) : List (Option ℚ) → Nat × Option ℚ
  | [] => (bi, bv)
  | a :: rest =>
    if ltOpt a bv then argminFrom (i + 1) i a rest
    else argminFrom (i + 1) bi bv rest

/-- `simplexTableau(tableau)`: one selection step.  Returns
`(p, q, opt, bounded)` exactly as the source does: `(none, none, true, true)`
when no reduced cost is negative, `(none, none, false, false)` when the
minimum-ratio step is infinite, and `(some p, some q, false, true)`
otherwise.  `p = np.argmax(reducedCost < 0)` is the index of the first
negative reduced cost; `q = np.argmin(steps)` where
`steps[k] = xb[k] / tableau[k][p]` if `tableau[k][p] > 0` else `np.inf`.
`np.argmin` of an empty array raises, which is the `.error` branch. -/
def simplexTableau (T : Tableau) : Except String (Option Nat × Option Nat × Bool × Bool) :=
  let mtab := T.length
  let m := mtab - 1
  let reducedCost := reducedCosts T
  if ¬ reducedCost.any (fun x => decide (x < 0)) then .ok (none, none, true, true)
  else
    let p := reducedCost.findIdx (fun x => decide (x < 0))
    let steps := (List.range m).map fun k =>
      let d := entry T k p
      if 0 < d then some (lastCol (rowOf T k) / d) else none
    match steps with
    | [] => .error "attempt to get argmin of an empty sequence"
    | s0 :: rest =>
      let qs := argminFrom 1 0 s0 rest
      if qs.2 = none then .ok (none, none, false, false)
      else .ok (some p, some qs.1, false, true)

/-- `simplexAlgorithmTableau(tableau)`: iterate selection and pivoting until
optimal or unbounded, returning `(tableau, optimal, unbounded)`. -/
def simplexAlgorithmTableau : Nat → Tableau → Except String (Tableau × Bool × Bool)
  | 0, _ => .error "out of fuel"
  | fuel + 1, T =>
    match simplexTableau T with
    | .error e => .error e
    | .ok (colPivot, rowPivot, optimal, bounded) =>
      if optimal then .ok (T, true, false)
      else if ¬ bounded then .ok (T, false, true)
      else
        match colPivot, rowPivot with
        | some p, some q =>
          match pivoting T p q with
          | .error e => .error e
          | .ok T' => simplexAlgorithmTableau fuel T'
        | _, _ => .error "missing pivot indices"

/-- The loop body of `getRow`: scan a column; record the row of an entry
equal to 1 (within `eps`) among entries that are non-zero (above `sqrtEps`);
any second non-zero entry, or a non-zero entry different from 1, returns
`none` at once. -/
def getRowAux : Nat → Option Nat → List ℚ → Option Nat
  | _, rowIndex, [] => rowIndex
  | j, rowIndex, x :: rest =>
    if sqrtEps < |x| then
      if rowIndex = none ∧ |x - 1| ≤ eps then getRowAux (j + 1) (some j) rest
      else none
    else getRowAux (j + 1) rowIndex rest

/-- `getRow(tableau, index)`: the row in which variable `index` is basic, or
`none`.  (The source also raises when `index` is not in `range(n)`; every
call the driver makes passes an in-range index, so that guard is not
modelled.) -/
def getRow (T : Tableau) (index : Nat) : Option Nat :=
  getRowAux 0 none (column T index)

/-- `A[i, :] = -A[i, :]` for every row `i` with `b[i] < 0`. -/
def normalizeA (A : List Row) (b : List ℚ) : List Row :=
  (List.range A.length).map fun i =>
    if b.getD i 0 < 0 then (A.getD i []).map (fun x => -x) else A.getD i []

/-- `b[i] = -b[i]` for every `i` with `b[i] < 0`. -/
def normalizeb (b : List ℚ) : List ℚ := b.map fun x => if x < 0 then -x else x

/-- The first tableau for the auxiliary problem: `A` in the structural
columns, an identity block for the artificial variables, `b` as the
right-hand side; objective row `[-colsum(A) | 0 | -sum(b)]`. -/
def phaseOneInitial (A : List Row) (b : List ℚ) (m n : Nat) : Tableau :=
  ((List.range m).map fun i =>
      (List.range n).map (fun j => (A.getD i []).getD j 0)
        ++ (List.range m).map (fun j => if j = i then (1 : ℚ) else 0)
        ++ [b.getD i 0])
  ++ [(List.range n).map
        (fun k => -(((List.range m).map fun i => (A.getD i []).getD k 0).sum))
      ++ (List.range m).map (fun _ => (0 : ℚ))
      ++ [-(((List.range m).map fun i => b.getD i 0).sum)]]

/-- `np.delete(T, idxs, 0)`: remove the rows whose index is in `idxs`. -/
def deleteRows (T : Tableau) (idxs : List Nat) : Tableau :=
  (T.enum.filter (fun ir => ¬ ir.1 ∈ idxs)).map (fun ir => ir.2)

/-- `np.delete(T, range(lo, hi), 1)`: remove columns `lo ≤ j < hi`. -/
def deleteCols (T : Tableau) (lo hi : Nat) : Tableau :=
  T.map fun r => ((r.enum.filter fun je => ¬ (lo ≤ je.1 ∧ je.1 < hi)).map fun je => je.2)

/-- The `while not clean` loop of `simplex`, which drives the auxiliary
variables out of the basis.  `basicRows` is the source's array of the same
name (length `m + n`); `rowsToRemove` accumulates deleted row indices across
iterations, and — exactly as in the source — the whole accumulated list is
passed to `np.delete` again at each removal.  The iteration order of the
source's small-integer `set`s is increasing, so `set.pop()` is the least
element and `list(set(range(n)) - basicIndices)` is increasing. -/
def cleanupPhaseOne : Nat → Tableau → List (Option Nat) → List Nat → Nat → Nat →
    Except String (Tableau × List Nat)
  | 0, _, _, _, _, _ => .error "out of fuel"
  | fuel + 1, T, basicRows, rowsToRemove, n, m =>
    let basicIndices := (List.range (m + n)).filter fun j => (basicRows.getD j none).isSome
    let tobeCleaned := basicIndices.filter fun j => n ≤ j
    match tobeCleaned with
    | [] => .ok (T, rowsToRemove)
    | auxiliaryColumn :: _ =>
      let rowpivotIndex := (basicRows.getD auxiliaryColumn none).getD 0
      let rowpivot := rowOf T rowpivotIndex
      let originalNonbasic := (List.range n).filter fun j => basicRows.getD j none = none
      match originalNonbasic.find? (fun j => decide (eps < |rowpivot.getD j 0|)) with
      | some colpivot =>
        match pivoting T colpivot rowpivotIndex with
        | .error e => .error e
        | .ok T' =>
          cleanupPhaseOne fuel T'
            ((basicRows.set colpivot (some rowpivotIndex)).set auxiliaryColumn none)
            rowsToRemove n m
      | none =>
        let rowsToRemove' := rowsToRemove ++ [rowpivotIndex]
        let T' := deleteRows T rowsToRemove'
        cleanupPhaseOne fuel T' ((List.range (m + n)).map (getRow T')) rowsToRemove' n m

/-- `simplex(A, b, c)`, the two-phase driver.  Returns the final values of
the caller's `A` and `b` (which the source mutates in place during sign
normalization) together with `(tableau, unbounded, infeasible)`. -/
def simplex (fuel : Nat) (A : List Row) (b c : List ℚ) :
    Except String (List Row × List ℚ × Tableau × Bool × Bool) :=
  let m := A.length
  let n := (A.getD 0 []).length
  if b.length ≠ m then .error "Incompatible sizes of A and b"
  else if c.length ≠ n then .error "Incompatible sizes of A and c"
  else
    let A' := normalizeA A b
    let b' := normalizeb b
    let tableau := phaseOneInitial A' b' m n
    match simplexAlgorithmTableau fuel tableau with
    | .error e => .error e
    | .ok (phaseOneTableau, _optimal, unbounded) =>
      if unbounded then .ok (A', b', tableau, true, false)
      else if lastCol (rowOf phaseOneTableau (phaseOneTableau.length - 1)) < -sqrtEps then
        .ok (A', b', phaseOneTableau, false, true)
      else
        match cleanupPhaseOne fuel phaseOneTableau
            ((List.range (m + n)).map (getRow phaseOneTableau)) [] n m with
        | .error e => .error e
        | .ok (cleanTableau, _rowsToRemove) =>
          let startPhaseTwo := deleteCols cleanTableau n (n + m)
          let basicRows := (List.range n).map (getRow startPhaseTwo)
          let basicIndices := (List.range n).filter fun j => (basicRows.getD j none).isSome
          let lastRowIdx := startPhaseTwo.length - 1
          let oldLast := rowOf startPhaseTwo lastRowIdx
          let newLast := oldLast.enum.map fun ke =>
            if ke.1 = oldLast.length - 1 then
              -((basicIndices.map fun j =>
                  c.getD j 0 *
                    entry startPhaseTwo ((basicRows.getD j none).getD 0) (oldLast.length - 1)).sum)
            else if ke.1 < n ∧ basicRows.getD ke.1 none = none then
              c.getD ke.1 0 - ((basicIndices.map fun j =>
                c.getD j 0 * entry startPhaseTwo ((basicRows.getD j none).getD 0) ke.1).sum)
            else ke.2
          let startPhaseTwo' := startPhaseTwo.set lastRowIdx newLast
          match simplexAlgorithmTableau fuel startPhaseTwo' with
          | .error e => .error e
          | .ok (phaseTwoTableau, _opt2, unbounded2) =>
            .ok (A', b', phaseTwoTableau, unbounded2, false)

/-- The solution read off a terminal tableau, as `printResults` does: the
right-hand-side entry of the row where each variable is basic, 0 otherwise. -/
def extractSolution (T : Tableau) : List ℚ :=
  (List.range ((T.getD 0 []).length - 1)).map fun k =>
    match getRow T k with
    | some r => lastCol (rowOf T r)
    | none => 0

/-- The objective value read off a terminal tableau: `-tableau[-1][-1]`. -/
def objectiveValue (T : Tableau) : ℚ := -(lastCol (rowOf T (T.length - 1)))

/-! ### Generic list access lemmas used throughout -/

theorem getD_range_map {α : Type} (f : Nat → α) (d : α) {i m : Nat} (h : i < m) :
    (((List.range m).map f).getD i d) = f i := by
  rw [List.getD_eq_getElem _ _ (by simpa using h)]
  simp

theorem getD_map {α β : Type} (f : α → β) (l : List α) {i : Nat} (h : i < l.length)
    (d : α) (d' : β) : ((l.map f).getD i d') = f (l.getD i d) := by
  rw [List.getD_eq_getElem _ _ (by simpa using h), List.getD_eq_getElem _ _ h]
  simp

theorem getD_zipWith {α β γ : Type} (f : α → β → γ) (l₁ : List α) (l₂ : List β) {i : Nat}
    (h₁ : i < l₁.length) (h₂ : i < l₂.length) (d₁ : α) (d₂ : β) (d : γ) :
    (List.zipWith f l₁ l₂).getD i d = f (l₁.getD i d₁) (l₂.getD i d₂) := by
  rw [List.getD_eq_getElem _ _ (by simp [List.length_zipWith]; omega),
    List.getD_eq_getElem _ _ h₁, List.getD_eq_getElem _ _ h₂]
  exact List.getElem_zipWith

theorem rowOf_mem {T : Tableau} {i : Nat} (h : i < T.length) : rowOf T i ∈ T := by
  rw [rowOf, List.getD_eq_getElem _ _ h]
  exact List.getElem_mem h

theorem eps_pos : (0 : ℚ) < eps := by norm_num [eps]

theorem sqrtEps_pos : (0 : ℚ) < sqrtEps := by norm_num [sqrtEps]

theorem ne_zero_of_eps_le {x : ℚ} (h : eps ≤ |x|) : x ≠ 0 := by
  intro h0
  rw [h0, abs_zero] at h
  exact absurd (lt_of_lt_of_le eps_pos h) (lt_irrefl 0)

/-! ### The pivot operator -/

/-- The tableau the spec describes for a pivot at `(p, q)`: row `q` divided
by the pivot value, every other row `i` decreased by `tableau[i][p]` times
the divided pivot row. -/
def pivotSpec (T : Tableau) (p q : Nat) : Tableau :=
  (List.range T.length).map fun i =>
    if i = q then (rowOf T q).map (fun y => y / entry T q p)
    else List.zipWith (fun x y => x - entry T i p * y)
      (rowOf T i) ((rowOf T q).map (fun y => y / entry T q p))

theorem length_pivotSpec (T : Tableau) (p q : Nat) : (pivotSpec T p q).length = T.length := by
  simp [pivotSpec]

theorem pivoting_eq_ok {T : Tableau} {p q : Nat}
    (hq : q < T.length) (hp : p < (T.getD 0 []).length)
    (hpiv : eps ≤ |entry T q p|) :
    pivoting T p q = .ok (pivotSpec T p q) := by
  have h1 : ¬ q ≥ T.length := by omega
  have h2 : ¬ p ≥ (T.getD 0 []).length := by omega
  have h3 : ¬ |entry T q p| < eps := not_lt.mpr hpiv
  simp only [pivoting, if_neg h1, if_neg h2, if_neg h3]
  refine congrArg Except.ok ?_
  rw [pivotSpec]
  refine List.map_congr_left fun i _ => ?_
  by_cases hiq : i = q
  · simp [hiq]
  · rw [if_neg hiq, if_neg hiq, List.zipWith_map_right]
    have hf : (fun x y : ℚ => x - entry T i p * y / entry T q p)
        = fun x y : ℚ => x - entry T i p * (y / entry T q p) := by
      funext x y
      ring
    rw [hf]

theorem rowOf_length {T : Tableau} {n : Nat}
    (hrect : ∀ r ∈ T, r.length = n) {i : Nat} (hi : i < T.length) :
    (rowOf T i).length = n :=
  hrect _ (rowOf_mem hi)

theorem rowOf_pivotSpec {T : Tableau} {p q i : Nat} (hi : i < T.length) :
    rowOf (pivotSpec T p q) i =
      if i = q then (rowOf T q).map (fun y => y / entry T q p)
      else List.zipWith (fun x y => x - entry T i p * y)
        (rowOf T i) ((rowOf T q).map (fun y => y / entry T q p)) := by
  rw [rowOf, pivotSpec, getD_range_map _ _ hi]

theorem getD_rowOf_entry (T : Tableau) (i j : Nat) : (rowOf T i).getD j 0 = entry T i j := rfl

theorem entry_pivotSpec_pivot {T : Tableau} {n p q : Nat}
    (hrect : ∀ r ∈ T, r.length = n)
    (hq : q < T.length) (hp : p < n) (hpiv : eps ≤ |entry T q p|) :
    entry (pivotSpec T p q) q p = 1 := by
  have hlen : (rowOf T q).length = n := rowOf_length hrect hq
  rw [entry, ← rowOf, rowOf_pivotSpec hq, if_pos rfl, getD_map _ _ (by omega) 0 0,
    getD_rowOf_entry, div_self (ne_zero_of_eps_le hpiv)]

theorem entry_pivotSpec_col {T : Tableau} {n p q i : Nat}
    (hrect : ∀ r ∈ T, r.length = n)
    (hq : q < T.length) (hp : p < n) (hpiv : eps ≤ |entry T q p|)
    (hi : i < T.length) (hiq : i ≠ q) :
    entry (pivotSpec T p q) i p = 0 := by
  have hlq : (rowOf T q).length = n := rowOf_length hrect hq
  have hli : (rowOf T i).length = n := rowOf_length hrect hi
  rw [entry, ← rowOf, rowOf_pivotSpec hi, if_neg hiq,
    getD_zipWith _ _ _ (by omega) (by simp [hlq]; omega) 0 0 0,
    getD_map _ _ (by omega) 0 0, getD_rowOf_entry, getD_rowOf_entry,
    div_self (ne_zero_of_eps_le hpiv)]
  ring

theorem pivotSpec_rect {T : Tableau} {n p q : Nat}
    (hrect : ∀ r ∈ T, r.length = n)
    (hq : q < T.length) :
    ∀ r ∈ pivotSpec T p q, r.length = n := by
  intro r hr
  obtain ⟨i, hi, rfl⟩ := List.mem_iff_getElem.mp hr
  have hi' : i < T.length := by simpa [length_pivotSpec] using hi
  have : (pivotSpec T p q)[i] = rowOf (pivotSpec T p q) i := by
    rw [rowOf, List.getD_eq_getElem _ _ (by simpa [length_pivotSpec] using hi)]
  rw [this, rowOf_pivotSpec hi']
  have hlq : (rowOf T q).length = n := rowOf_length hrect hq
  have hli : (rowOf T i).length = n := rowOf_length hrect hi'
  by_cases hiq : i = q
  · simp [hiq, hlq]
  · simp [hiq, List.length_zipWith, hli, hlq]

theorem zipWith_left {α β : Type} (l₁ : List α) (l₂ : List β) (h : l₁.length ≤ l₂.length) :
    List.zipWith (fun x _ => x) l₁ l₂ = l₁ := by
  apply List.ext_getElem
  · simp only [List.length_zipWith]
    omega
  · intro i h1 h2
    simp [List.getElem_zipWith]

theorem ncols_eq_of_rect {T : Tableau} {n : Nat}
    (hrect : ∀ r ∈ T, r.length = n) (hT : 0 < T.length) :
    (T.getD 0 []).length = n :=
  hrect _ (rowOf_mem hT)

/-- If column `p` is already the `q`-th unit vector, `pivoting` at `(p, q)`
returns the tableau unchanged. -/
theorem pivoting_ok_self {T : Tableau} {n p q : Nat}
    (hrect : ∀ r ∈ T, r.length = n) (hq : q < T.length) (hp : p < n)
    (hqp : entry T q p = 1) (hcol : ∀ i, i < T.length → i ≠ q → entry T i p = 0) :
    pivoting T p q = .ok T := by
  have hp0 : p < (T.getD 0 []).length := by
    rw [ncols_eq_of_rect hrect (by omega)]
    exact hp
  have hpiv : eps ≤ |entry T q p| := by
    rw [hqp]
    norm_num [eps]
  rw [pivoting_eq_ok hq hp0 hpiv]
  refine congrArg Except.ok (List.ext_getElem (length_pivotSpec T p q) ?_)
  intro i h1 h2
  have hi : i < T.length := h2
  have hrow : (pivotSpec T p q)[i] = rowOf (pivotSpec T p q) i := by
    rw [rowOf, List.getD_eq_getElem _ _ h1]
  have hTi : T[i] = rowOf T i := by
    rw [rowOf, List.getD_eq_getElem _ _ h2]
  rw [hrow, hTi, rowOf_pivotSpec hi]
  by_cases hiq : i = q
  · subst hiq
    rw [hqp]
    simp
  · rw [if_neg hiq, hcol i hi hiq]
    simp only [zero_mul, sub_zero]
    exact zipWith_left _ _ (by simp [rowOf_length hrect hi, rowOf_length hrect hq])

/-- C5: for every rectangular tableau and in-range pivot position whose
pivot entry has absolute value at least `eps`, `pivoting` returns the new
tableau in which row `q` is row `q` of `T` divided by the pivot entry — so
entry `(q, p)` equals 1 — and every other row `i` is row `i` of `T` minus
`T[i][p]` times the divided pivot row — so column `p` is zero in every row
other than `q`. -/
theorem pivoting_rows_spec {T : Tableau} {n p q : Nat}
    (hrect : ∀ r ∈ T, r.length = n)
    (hq : q < T.length) (hp : p < n)
    (hpiv : eps ≤ |entry T q p|) :
    pivoting T p q = .ok (pivotSpec T p q) ∧
    entry (pivotSpec T p q) q p = 1 ∧
    ∀ i, i < T.length → i ≠ q → entry (pivotSpec T p q) i p = 0 := by
  have hp0 : p < (T.getD 0 []).length := by
    rw [ncols_eq_of_rect hrect (by omega)]
    exact hp
  exact ⟨pivoting_eq_ok hq hp0 hpiv, entry_pivotSpec_pivot hrect hq hp hpiv,
    fun i hi hiq => entry_pivotSpec_col hrect hq hp hpiv hi hiq⟩

/-- Witness for C5 at the first example tableau of the pivoting notebook
(pivot column 1, pivot row 2). -/
theorem pivoting_rows_spec_witness :
    pivoting [[0, 3/2, 1, 1, -1/2, 0, 10], [1, 1/2, 1, 0, 1/2, 0, 10],
        [0, 1, -1, 0, -1, 1, 0], [0, -7, -2, 0, 5, 0, 100]] 1 2 =
      .ok (pivotSpec [[0, 3/2, 1, 1, -1/2, 0, 10], [1, 1/2, 1, 0, 1/2, 0, 10],
        [0, 1, -1, 0, -1, 1, 0], [0, -7, -2, 0, 5, 0, 100]] 1 2) :=
  (pivoting_rows_spec (n := 7) (by decide) (by decide) (by decide) (by decide)).1

/-- C7: for an in-range pivot position, `pivoting` raises the
degenerate-pivot error exactly when the pivot entry is below `eps` in
absolute value (value semantics make the input tableau trivially
unchanged: `pivoting` never modifies its argument). -/
theorem pivoting_degenerate_iff {T : Tableau} {p q : Nat}
    (hq : q < T.length) (hp : p < (T.getD 0 []).length) :
    pivoting T p q = .error "The pivot is too close to zero" ↔ |entry T q p| < eps := by
  have h1 : ¬ q ≥ T.length := by omega
  have h2 : ¬ p ≥ (T.getD 0 []).length := by omega
  simp only [pivoting, if_neg h1, if_neg h2]
  by_cases h : |entry T q p| < eps
  · simp [h]
  · simp [h]

/-- Witness for C7 at a tableau whose pivot entry is exactly zero. -/
theorem pivoting_degenerate_iff_witness :
    pivoting [[0, 1], [1, 0]] 0 0 = .error "The pivot is too close to zero" :=
  (pivoting_degenerate_iff (T := [[0, 1], [1, 0]]) (by decide) (by decide)).mpr (by decide)

/-- C9: re-pivoting the pivoted tableau at the same position is a no-op:
after the first pivot, column `p` is the `q`-th unit vector, so the second
pivot divides row `q` by 1 and subtracts a zero multiple from every other
row. -/
theorem pivoting_idempotent {T : Tableau} {n p q : Nat}
    (hrect : ∀ r ∈ T, r.length = n)
    (hq : q < T.length) (hp : p < n)
    (hpiv : eps ≤ |entry T q p|) :
    (pivoting T p q).bind (fun T' => pivoting T' p q) = pivoting T p q := by
  have hp0 : p < (T.getD 0 []).length := by
    rw [ncols_eq_of_rect hrect (by omega)]
    exact hp
  rw [pivoting_eq_ok hq hp0 hpiv]
  show pivoting (pivotSpec T p q) p q = _
  exact pivoting_ok_self (pivotSpec_rect hrect hq)
    (by rw [length_pivotSpec]; exact hq) hp
    (entry_pivotSpec_pivot hrect hq hp hpiv)
    (fun i hi hiq =>
      entry_pivotSpec_col hrect hq hp hpiv (by rwa [length_pivotSpec] at hi) hiq)

/-- Witness for C9 at the first example tableau of the pivoting notebook. -/
theorem pivoting_idempotent_witness :
    (pivoting [[0, 3/2, 1, 1, -1/2, 0, 10], [1, 1/2, 1, 0, 1/2, 0, 10],
        [0, 1, -1, 0, -1, 1, 0], [0, -7, -2, 0, 5, 0, 100]] 1 2).bind
      (fun T' => pivoting T' 1 2) =
    pivoting [[0, 3/2, 1, 1, -1/2, 0, 10], [1, 1/2, 1, 0, 1/2, 0, 10],
        [0, 1, -1, 0, -1, 1, 0], [0, -7, -2, 0, 5, 0, 100]] 1 2 :=
  pivoting_idempotent (n := 7) (by decide) (by decide) (by decide) (by decide)

/-! ### The entering/leaving selector -/

/-- View of an `Except` value as a sum, to decide equalities of concrete
results. -/
def exceptToSum {ε α : Type} : Except ε α → ε ⊕ α
  | .error e => .inl e
  | .ok a => .inr a

instance exceptDecEq {ε α : Type} [DecidableEq ε] [DecidableEq α] :
    DecidableEq (Except ε α) := fun a b =>
  decidable_of_iff (exceptToSum a = exceptToSum b)
    (by cases a <;> cases b <;> simp [exceptToSum])

/-- The steps list of the ratio test for entering column `p`. -/
def stepsList (T : Tableau) (m p : Nat) : List (Option ℚ) :=
  (List.range m).map fun k =>
    if 0 < entry T k p then some (lastCol (rowOf T k) / entry T k p) else none

/-- The result of `np.argmin` on a nonempty steps list. -/
def argminSteps (l : List (Option ℚ)) : Nat × Option ℚ :=
  argminFrom 1 0 (l.getD 0 none) l.tail

/-- When some reduced cost is negative and there is at least one constraint
row, `simplexTableau` reduces to the minimum-ratio test on the steps list. -/
theorem simplexTableau_cons {T : Tableau} {m' : Nat}
    (hTlen : T.length - 1 = m' + 1)
    (hany : (reducedCosts T).any (fun x => decide (x < 0)) = true) :
    simplexTableau T =
      (if (argminSteps (stepsList T (m' + 1)
            ((reducedCosts T).findIdx fun x => decide (x < 0)))).2 = none then
        .ok (none, none, false, false)
      else
        .ok (some ((reducedCosts T).findIdx fun x => decide (x < 0)),
          some (argminSteps (stepsList T (m' + 1)
            ((reducedCosts T).findIdx fun x => decide (x < 0)))).1, false, true)) := by
  simp only [simplexTableau, hany, not_true_eq_false, if_false, hTlen, stepsList, argminSteps,
    List.range_succ_eq_map, List.map_cons, List.map_map]
  rfl

/-- When no reduced cost is negative the selector reports an optimal
tableau. -/
theorem simplexTableau_optimal {T : Tableau}
    (hany : (reducedCosts T).any (fun x => decide (x < 0)) = false) :
    simplexTableau T = .ok (none, none, true, true) := by
  simp [simplexTableau, hany]

/-- With a negative reduced cost but no constraint rows, the selector hits
`np.argmin` of an empty array and raises. -/
theorem simplexTableau_nil {T : Tableau} (hTlen : T.length - 1 = 0)
    (hany : (reducedCosts T).any (fun x => decide (x < 0)) = true) :
    simplexTableau T = .error "attempt to get argmin of an empty sequence" := by
  simp only [simplexTableau, hany, not_true_eq_false, if_false, hTlen, List.range_zero,
    List.map_nil]

/-- C1 (amended): whenever the selector returns an entering column `p`, that
column is the first column with a negative reduced cost — regardless of
magnitude (Bland-style first-negative rule, not Dantzig's most-negative
rule). -/
theorem simplexTableau_entering_first_negative {T : Tableau} {p : Nat}
    {qopt : Option Nat} {b1 b2 : Bool}
    (h : simplexTableau T = .ok (some p, qopt, b1, b2)) :
    (reducedCosts T).getD p 0 < 0 ∧ ∀ j, j < p → 0 ≤ (reducedCosts T).getD j 0 := by
  have hp : p = (reducedCosts T).findIdx (fun x => decide (x < 0)) ∧
      (reducedCosts T).any (fun x => decide (x < 0)) = true := by
    cases hany : (reducedCosts T).any (fun x => decide (x < 0)) with
    | false =>
      rw [simplexTableau_optimal hany] at h
      simp at h
    | true =>
      refine ⟨?_, rfl⟩
      rcases hm : T.length - 1 with _ | m'
      · rw [simplexTableau_nil hm hany] at h
        simp at h
      · rw [simplexTableau_cons hm hany] at h
        split at h
        · simp at h
        · simp only [Except.ok.injEq, Prod.mk.injEq, Option.some.injEq] at h
          exact h.1.symm
  obtain ⟨hp, hany⟩ := hp
  obtain ⟨x, hx, hpx⟩ := List.any_eq_true.mp hany
  have hplen : (reducedCosts T).findIdx (fun x => decide (x < 0)) < (reducedCosts T).length :=
    List.findIdx_lt_length.mpr ⟨x, hx, hpx⟩
  constructor
  · rw [hp, List.getD_eq_getElem _ _ hplen]
    exact of_decide_eq_true (List.findIdx_getElem (w := hplen))
  · intro j hj
    have hjlen : j < (reducedCosts T).length := by omega
    have := List.not_of_lt_findIdx (by omega : j < (reducedCosts T).findIdx fun x => decide (x < 0))
    rw [List.getD_eq_getElem _ _ hjlen]
    simpa using this

/-- The entering rule the claim asserts (modelled from the spec's words):
the first column attaining the most negative reduced cost. -/
def mostNegativeEnteringColumn (T : Tableau) : Nat :=
  (reducedCosts T).findIdx fun x =>
    decide (x ≤ (reducedCosts T).foldr min ((reducedCosts T).headD 0))

/-- Counterexample to C1 as stated: on the tableau with reduced-cost row
`[-1, -5]`, the selector enters column 0 (the first negative reduced cost),
while the first column attaining the most negative reduced cost is column 1.
-/
theorem simplexTableau_not_dantzig :
    simplexTableau [[1, 1, 1], [-1, -5, 0]] = .ok (some 0, some 0, false, true) ∧
    mostNegativeEnteringColumn [[1, 1, 1], [-1, -5, 0]] = 1 ∧ (0 : Nat) ≠ 1 := by
  decide

/-- Witness for the amended C1: on a concrete tableau the returned entering
column indeed carries a negative reduced cost. -/
theorem simplexTableau_entering_first_negative_witness :
    (reducedCosts [[2, 1], [-1, 0]]).getD 0 0 < 0 :=
  (@simplexTableau_entering_first_negative [[2, 1], [-1, 0]] 0 (some 0) false true
    (by decide)).1

/-- Steps viewed as extended rationals: `none` is `np.inf`. -/
def toWT : Option ℚ → WithTop ℚ
  | none => ⊤
  | some x => (x : WithTop ℚ)

theorem ltOpt_iff {a b : Option ℚ} : ltOpt a b = true ↔ toWT a < toWT b := by
  cases a <;> cases b <;> simp [ltOpt, toWT]

theorem argminFrom_spec (l : List (Option ℚ)) : ∀ (i bi : Nat) (bv : Option ℚ),
    ((argminFrom i bi bv l).1 = bi ∧ (argminFrom i bi bv l).2 = bv ∧
      ∀ j, j < l.length → ¬ toWT (l.getD j none) < toWT bv) ∨
    (∃ j, j < l.length ∧ (argminFrom i bi bv l).1 = i + j ∧
      (argminFrom i bi bv l).2 = l.getD j none ∧
      toWT (l.getD j none) < toWT bv ∧
      (∀ j', j' < l.length → ¬ toWT (l.getD j' none) < toWT (l.getD j none)) ∧
      ∀ j', j' < j → toWT (l.getD j none) < toWT (l.getD j' none)) := by
  induction l with
  | nil =>
    intro i bi bv
    left
    simp [argminFrom]
  | cons a rest ih =>
    intro i bi bv
    rw [argminFrom]
    by_cases ha : ltOpt a bv = true
    · rw [if_pos ha]
      have hav : toWT a < toWT bv := ltOpt_iff.mp ha
      rcases ih (i + 1) i a with ⟨h1, h2, h3⟩ | ⟨j, hj, h1, h2, h3, h4, h5⟩
      · right
        refine ⟨0, by simp, by simpa using h1, by simpa using h2, by simpa using hav, ?_, ?_⟩
        · intro j' hj'
          cases j' with
          | zero => simp
          | succ k =>
            rw [List.getD_cons_succ, List.getD_cons_zero]
            exact h3 k (by simpa using hj')
        · intro j' hj'
          omega
      · right
        refine ⟨j + 1, by simpa using hj, by rw [h1]; omega, by simpa using h2, ?_, ?_, ?_⟩
        · rw [List.getD_cons_succ]
          exact lt_trans h3 hav
        · intro j' hj'
          cases j' with
          | zero =>
            rw [List.getD_cons_succ, List.getD_cons_zero]
            exact fun hlt => absurd (lt_trans h3 hlt) (lt_irrefl _)
          | succ k =>
            rw [List.getD_cons_succ, List.getD_cons_succ]
            exact h4 k (by simpa using hj')
        · intro j' hj'
          cases j' with
          | zero =>
            rw [List.getD_cons_succ, List.getD_cons_zero]
            exact h3
          | succ k =>
            rw [List.getD_cons_succ, List.getD_cons_succ]
            exact h5 k (by omega)
    · rw [if_neg ha]
      have hav : ¬ toWT a < toWT bv := fun hlt => ha (ltOpt_iff.mpr hlt)
      rcases ih (i + 1) bi bv with ⟨h1, h2, h3⟩ | ⟨j, hj, h1, h2, h3, h4, h5⟩
      · left
        refine ⟨h1, h2, ?_⟩
        intro j hj
        cases j with
        | zero =>
          rw [List.getD_cons_zero]
          exact hav
        | succ k =>
          rw [List.getD_cons_succ]
          exact h3 k (by simpa using hj)
      · right
        refine ⟨j + 1, by simpa using hj, by rw [h1]; omega, by simpa using h2, h3, ?_, ?_⟩
        · intro j' hj'
          cases j' with
          | zero =>
            rw [List.getD_cons_succ, List.getD_cons_zero]
            intro hlt
            exact hav (lt_trans hlt h3)
          | succ k =>
            rw [List.getD_cons_succ, List.getD_cons_succ]
            exact h4 k (by simpa using hj')
        · intro j' hj'
          cases j' with
          | zero =>
            rw [List.getD_cons_succ, List.getD_cons_zero]
            exact lt_of_lt_of_le h3 (not_lt.mp hav)
          | succ k =>
            rw [List.getD_cons_succ, List.getD_cons_succ]
            exact h5 k (by omega)

theorem argminSteps_spec (l : List (Option ℚ)) (hl : l ≠ []) :
    (argminSteps l).1 < l.length ∧
    (argminSteps l).2 = l.getD (argminSteps l).1 none ∧
    (∀ k, k < l.length → ¬ toWT (l.getD k none) < toWT (argminSteps l).2) ∧
    ∀ k, k < (argminSteps l).1 → toWT (argminSteps l).2 < toWT (l.getD k none) := by
  obtain ⟨s0, rest, rfl⟩ := List.exists_cons_of_ne_nil hl
  rw [argminSteps, List.getD_cons_zero, List.tail_cons]
  rcases argminFrom_spec rest 1 0 s0 with ⟨h1, h2, h3⟩ | ⟨j, hj, h1, h2, h3, h4, h5⟩
  · refine ⟨by simp [h1], by rw [h1, h2, List.getD_cons_zero], ?_, ?_⟩
    · intro k hk
      cases k with
      | zero =>
        rw [List.getD_cons_zero, h2]
        exact lt_irrefl _
      | succ k' =>
        rw [List.getD_cons_succ, h2]
        exact h3 k' (by simpa using hk)
    · intro k hk
      rw [h1] at hk
      omega
  · have hidx : (1 : Nat) + j = j + 1 := by omega
    refine ⟨by rw [h1]; simp; omega, by rw [h1, h2, hidx, List.getD_cons_succ], ?_, ?_⟩
    · intro k hk
      cases k with
      | zero =>
        rw [List.getD_cons_zero, h2]
        exact fun hlt => absurd (lt_trans h3 hlt) (lt_irrefl _)
      | succ k' =>
        rw [List.getD_cons_succ, h2]
        exact h4 k' (by simpa using hk)
    · intro k hk
      rw [h1] at hk
      cases k with
      | zero =>
        rw [List.getD_cons_zero, h2]
        exact h3
      | succ k' =>
        rw [List.getD_cons_succ, h2]
        exact h5 k' (by omega)

theorem stepsList_getD {T : Tableau} {m p k : Nat} (hk : k < m) :
    (stepsList T m p).getD k none =
      if 0 < entry T k p then some (lastCol (rowOf T k) / entry T k p) else none :=
  getD_range_map _ _ hk

theorem stepsList_length (T : Tableau) (m p : Nat) : (stepsList T m p).length = m := by
  simp [stepsList]

/-- C6: once an entering column `p` (first negative reduced cost) has been
selected, the selector declares UNBOUNDED exactly when no constraint row `k`
has `T[k][p] > 0`; otherwise it returns the pivot `(p, q)` where the leaving
row `q` is the first row attaining the minimum of `rhs[k] / T[k][p]` over
rows with `T[k][p] > 0`. -/
theorem simplexTableau_leaving_min_ratio {T : Tableau} {m p : Nat}
    (hTlen : T.length = m + 1) (hm : 0 < m)
    (hany : (reducedCosts T).any (fun x => decide (x < 0)) = true)
    (hp : p = (reducedCosts T).findIdx fun x => decide (x < 0)) :
    ((simplexTableau T = .ok (none, none, false, false)) ↔
      ∀ k, k < m → ¬ 0 < entry T k p) ∧
    ((∃ k, k < m ∧ 0 < entry T k p) →
      ∃ q, simplexTableau T = .ok (some p, some q, false, true) ∧ q < m ∧ 0 < entry T q p ∧
        (∀ k, k < m → 0 < entry T k p →
          lastCol (rowOf T q) / entry T q p ≤ lastCol (rowOf T k) / entry T k p) ∧
        ∀ k, k < q → 0 < entry T k p →
          lastCol (rowOf T q) / entry T q p < lastCol (rowOf T k) / entry T k p) := by
  obtain ⟨m', rfl⟩ : ∃ m', m = m' + 1 := ⟨m - 1, by omega⟩
  have hT1 : T.length - 1 = m' + 1 := by omega
  have heq := simplexTableau_cons hT1 hany
  rw [← hp] at heq
  set S := stepsList T (m' + 1) p with hS
  have hSne : S ≠ [] := by
    intro h0
    have := stepsList_length T (m' + 1) p
    rw [← hS, h0] at this
    simp at this
  obtain ⟨hqlt, hqval, hmin, hfirst⟩ := argminSteps_spec S hSne
  rw [stepsList_length] at hqlt
  constructor
  · constructor
    · intro h k hk hpos
      by_cases h2 : (argminSteps S).2 = none
      · have := hmin k (by rw [stepsList_length]; exact hk)
        rw [stepsList_getD hk, if_pos hpos, h2] at this
        exact this (by simp [toWT])
      · rw [heq, if_neg h2] at h
        simp at h
    · intro hall
      have h2 : (argminSteps S).2 = none := by
        rw [hqval, stepsList_getD hqlt, if_neg (hall _ hqlt)]
      rw [heq, if_pos h2]
  · rintro ⟨k0, hk0, hpos0⟩
    have h2 : (argminSteps S).2 ≠ none := by
      intro h2
      have := hmin k0 (by rw [stepsList_length]; exact hk0)
      rw [stepsList_getD hk0, if_pos hpos0, h2] at this
      exact this (by simp [toWT])
    have hposq : 0 < entry T (argminSteps S).1 p := by
      by_contra hneg
      rw [hqval, stepsList_getD hqlt, if_neg hneg] at h2
      exact h2 rfl
    have hvq : (argminSteps S).2 =
        some (lastCol (rowOf T (argminSteps S).1) / entry T (argminSteps S).1 p) := by
      rw [hqval, stepsList_getD hqlt, if_pos hposq]
    refine ⟨(argminSteps S).1, by rw [heq, if_neg h2], hqlt, hposq, ?_, ?_⟩
    · intro k hk hpos
      have hmk := hmin k (by rw [stepsList_length]; exact hk)
      rw [stepsList_getD hk, if_pos hpos, hvq] at hmk
      simp only [toWT, WithTop.coe_lt_coe] at hmk
      exact not_lt.mp hmk
    · intro k hk hpos
      have hfk := hfirst k hk
      have hk' : k < m' + 1 := by omega
      rw [hvq, stepsList_getD hk', if_pos hpos] at hfk
      simp only [toWT, WithTop.coe_lt_coe] at hfk
      exact hfk

/-- Witness for C6 at a tableau whose entering column has no positive
constraint-row entry: the selector declares the problem unbounded. -/
theorem simplexTableau_leaving_min_ratio_witness :
    simplexTableau [[-1, 2], [-1, 0]] = .ok (none, none, false, false) :=
  (simplexTableau_leaving_min_ratio (T := [[-1, 2], [-1, 0]]) (m := 1) (p := 0)
    (by decide) (by decide) (by decide) (by decide)).1.mpr (by decide)

/-! ### The two-phase driver -/

/-- Every successful `simplex` run returns the sign-normalized `A` and `b`
(the values the source leaves in the caller's arrays) and never sets both
classification flags. -/
theorem simplex_ok_shape {fuel : Nat} {A : List Row} {b c : List ℚ}
    {A' : List Row} {b' : List ℚ} {T : Tableau} {u i : Bool}
    (h : simplex fuel A b c = .ok (A', b', T, u, i)) :
    A' = normalizeA A b ∧ b' = normalizeb b ∧ ¬ (u = true ∧ i = true) := by
  simp only [simplex] at h
  split at h
  · exact absurd h (by simp)
  · split at h
    · exact absurd h (by simp)
    · split at h
      · exact absurd h (by simp)
      · split at h
        · simp only [Except.ok.injEq, Prod.mk.injEq] at h
          obtain ⟨h1, h2, _, h4, h5⟩ := h
          exact ⟨h1.symm, h2.symm, by rw [← h4, ← h5]; simp⟩
        · split at h
          · simp only [Except.ok.injEq, Prod.mk.injEq] at h
            obtain ⟨h1, h2, _, h4, h5⟩ := h
            exact ⟨h1.symm, h2.symm, by rw [← h4, ← h5]; simp⟩
          · split at h
            · exact absurd h (by simp)
            · split at h
              · exact absurd h (by simp)
              · simp only [Except.ok.injEq, Prod.mk.injEq] at h
                obtain ⟨h1, h2, _, h4, h5⟩ := h
                exact ⟨h1.symm, h2.symm, by rw [← h4, ← h5]; simp⟩

/-- C10: `simplex` never returns with both the unbounded and the infeasible
flag set: the three return sites produce `(u, False)`, `(True, False)` or
`(False, True)`. -/
theorem simplex_flags_exclusive {fuel : Nat} {A : List Row} {b c : List ℚ}
    {A' : List Row} {b' : List ℚ} {T : Tableau} {u i : Bool}
    (h : simplex fuel A b c = .ok (A', b', T, u, i)) :
    ¬ (u = true ∧ i = true) :=
  (simplex_ok_shape h).2.2

/-- Witness for C10 on a concrete solvable instance. -/
theorem simplex_flags_exclusive_witness : ¬ ((false : Bool) = true ∧ (false : Bool) = true) :=
  @simplex_flags_exclusive 20 [[1]] [1] [1] [[1]] [1] [[1, 1], [0, -1]] false false
    (by decide)

/-- Counterexample to C3 as stated: on `A = [[1]]`, `b = [-1]`, `c = [0]`
the call returns, and the caller's arrays afterwards hold `A = [[-1]]`,
`b = [1]` — the sign normalization of the row with negative `b` is visible
to the caller. -/
theorem simplex_mutates_on_negative_b :
    ((simplex 20 [[1]] [-1] [0]).toOption.map fun r => (r.1, r.2.1)) = some ([[-1]], [1]) ∧
    ([[(-1 : ℚ)]], [(1 : ℚ)]) ≠ ([[1]], [-1]) := by
  decide

theorem normalizeA_of_nonneg {A : List Row} {b : List ℚ} (hb : ∀ x ∈ b, 0 ≤ x) :
    normalizeA A b = A := by
  refine List.ext_getElem (by simp [normalizeA]) ?_
  intro i h1 h2
  simp only [normalizeA, List.getElem_map, List.getElem_range]
  have hnb : ¬ b.getD i 0 < 0 := by
    by_cases hib : i < b.length
    · exact not_lt.mpr (hb _ (by rw [List.getD_eq_getElem _ _ hib]; exact List.getElem_mem hib))
    · rw [List.getD_eq_getElem?_getD, List.getElem?_eq_none (by omega)]
      simp
  rw [if_neg hnb, List.getD_eq_getElem _ _ h2]

theorem normalizeb_of_nonneg {b : List ℚ} (hb : ∀ x ∈ b, 0 ≤ x) :
    normalizeb b = b := by
  rw [normalizeb]
  have : ∀ x ∈ b, (if x < 0 then -x else x) = x := fun x hx => if_neg (not_lt.mpr (hb x hx))
  rw [List.map_congr_left this]
  exact List.map_id' b

/-- C3 (amended): `simplex` leaves the caller's `A` and `b` unchanged
exactly on inputs whose `b` is componentwise non-negative; `c` is never
written at all (the embedding passes it through untouched). -/
theorem simplex_preserves_inputs_of_nonneg_b {fuel : Nat} {A : List Row} {b c : List ℚ}
    {A' : List Row} {b' : List ℚ} {T : Tableau} {u i : Bool}
    (hb : ∀ x ∈ b, 0 ≤ x)
    (h : simplex fuel A b c = .ok (A', b', T, u, i)) :
    A' = A ∧ b' = b := by
  obtain ⟨h1, h2, _⟩ := simplex_ok_shape h
  exact ⟨by rw [h1, normalizeA_of_nonneg hb], by rw [h2, normalizeb_of_nonneg hb]⟩

/-- Witness for the amended C3 on a concrete non-negative instance. -/
theorem simplex_preserves_inputs_of_nonneg_b_witness :
    [[(1 : ℚ)]] = [[1]] ∧ [(1 : ℚ)] = [1] :=
  @simplex_preserves_inputs_of_nonneg_b 20 [[1]] [1] [1] [[1]] [1] [[1, 1], [0, -1]]
    false false (by decide) (by decide)

/-- Counterexample to C2 as stated: on the infeasible instance
`A = [[1,-1,1,0],[-1,1,0,1]]`, `b = [-2,-1]`, `c = [-4,2,0,0]` the solver
reports INFEASIBLE, yet the optimal auxiliary objective value
`-(T1[-1][-1]) = 3` is not below zero — it is above zero.  The claim has the
sign of the test inverted. -/
theorem simplex_infeasible_sign_cex :
    ((simplex 20 [[1, -1, 1, 0], [-1, 1, 0, 1]] [-2, -1] [-4, 2, 0, 0]).toOption.map
      fun r => (r.2.2.2.1, r.2.2.2.2,
        decide (-(lastCol (rowOf r.2.2.1 (r.2.2.1.length - 1))) < -sqrtEps))) =
      some (false, true, false) := by
  decide

/-- C2 (amended): when Phase I terminates with a bounded optimum `T1`,
`simplex` reports INFEASIBLE — returning `T1` and stopping — exactly when
the objective-row RHS entry of `T1` is below `-sqrtEps`, i.e. when the
optimal auxiliary objective value `-(T1[-1][-1])` exceeds the tolerance
(not when it is below zero, as claimed). -/
theorem simplex_infeasible_iff {fuel : Nat} {A : List Row} {b c : List ℚ} {T1 : Tableau}
    (hb : b.length = A.length) (hc : c.length = (A.getD 0 []).length)
    (h1 : simplexAlgorithmTableau fuel
        (phaseOneInitial (normalizeA A b) (normalizeb b) A.length (A.getD 0 []).length) =
      .ok (T1, true, false)) :
    (lastCol (rowOf T1 (T1.length - 1)) < -sqrtEps →
      simplex fuel A b c = .ok (normalizeA A b, normalizeb b, T1, false, true)) ∧
    ∀ A' b' T u, simplex fuel A b c = .ok (A', b', T, u, true) →
      lastCol (rowOf T1 (T1.length - 1)) < -sqrtEps := by
  have hb' : ¬ b.length ≠ A.length := by omega
  have hc' : ¬ c.length ≠ (A.getD 0 []).length := by omega
  constructor
  · intro hlt
    simp only [simplex, if_neg hb', if_neg hc', h1]
    simp [hlt]
  · intro A' b' T u h
    by_contra hge
    simp only [simplex, if_neg hb', if_neg hc', h1] at h
    simp only [Bool.false_eq_true, if_false, if_neg hge] at h
    split at h
    · exact absurd h (by simp)
    · split at h
      · exact absurd h (by simp)
      · simp only [Except.ok.injEq, Prod.mk.injEq] at h
        exact Bool.false_ne_true h.2.2.2.2

/-- Witness for the amended C2 on the infeasible example of the notebook. -/
theorem simplex_infeasible_iff_witness :
    simplex 20 [[1, -1, 1, 0], [-1, 1, 0, 1]] [-2, -1] [-4, 2, 0, 0] =
      .ok (normalizeA [[1, -1, 1, 0], [-1, 1, 0, 1]] [-2, -1], normalizeb [-2, -1],
        [[-1, 1, -1, 0, 1, 0, 2], [1, -1, 0, -1, 0, 1, 1], [0, 0, 1, 1, 0, 0, -3]],
        false, true) :=
  (@simplex_infeasible_iff 20 [[1, -1, 1, 0], [-1, 1, 0, 1]] [-2, -1] [-4, 2, 0, 0]
    [[-1, 1, -1, 0, 1, 0, 2], [1, -1, 0, -1, 0, 1, 1], [0, 0, 1, 1, 0, 0, -3]]
    (by decide) (by decide) (by decide)).1 (by decide)

/-- Base instance for the redundant-row claim: four constraints on three
variables with `row 2 = row 0 + row 1` (rank 3), whose unique feasible point
is `(1, 1/2, 1/3)` with objective 11/6. -/
def dupBaseA : List Row := [[1, 2, 3], [-1, 2, 6], [0, 4, 9], [0, 0, 3]]

def dupBaseb : List ℚ := [3, 2, 5, 1]

def dupBasec : List ℚ := [1, 1, 1]

/-- The base instance with a duplicate of row 0 appended: the feasible set
(and hence the optimum) is unchanged. -/
def dupEnlA : List Row := [[1, 2, 3], [-1, 2, 6], [0, 4, 9], [0, 0, 3], [1, 2, 3]]

def dupEnlb : List ℚ := [3, 2, 5, 1, 3]

/-- C4 evaluation at the failing input (the claim is right, the code is
wrong): the base instance is classified OPTIMAL with objective value 11/6
and solution `[1, 1/2, 1/3]`, but after appending a duplicate of row 0 the
solver — whose cleanup step re-applies the accumulated `rowsToRemove` list
to the already-shrunk tableau and thereby deletes the genuine constraint
row `x2 = 1/3` — returns objective value 3/2 and the infeasible vector
`[1, 1/2, -3/2]`. -/
theorem simplex_duplicate_row_changes_result :
    ((simplex 20 dupBaseA dupBaseb dupBasec).toOption.map
      fun r => (objectiveValue r.2.2.1, extractSolution r.2.2.1, r.2.2.2.1, r.2.2.2.2)) =
      some (11/6, [1, 1/2, 1/3], false, false) ∧
    ((simplex 20 dupEnlA dupEnlb dupBasec).toOption.map
      fun r => (objectiveValue r.2.2.1, extractSolution r.2.2.1, r.2.2.2.1, r.2.2.2.2)) =
      some (3/2, [1, 1/2, -3/2], false, false) ∧
    (11/6 : ℚ) ≠ 3/2 := by
  decide
